import Mathlib

/-!
# Verification of the scousepy stage-3 autonomous decomposition engine

Shallow embedding of `src/scousepy/stage_3.py`: the per-spectrum
fitting/retry scheduler (`autonomous_decomposition`, `decomposition_method`)
and the multi-candidate compilation/deduplication stage
(`compile_spectra`, `compilation_method`).

Numeric values (fluxes, guesses, AIC) are modelled as rationals; the
external fitting capability (pyspeckit, via `SpectralDecomposer`) is an
opaque parameter, as the specification itself treats it.
-/

namespace Scousepy

/-- Modelled from the spec: `indivmodel` (model_housing2, not under `src/`) —
a converged parameter set for one task: parameter vector, per-parameter
uncertainty, an information-criterion value (AIC) and a component count. -/
structure IndivModel where
  params : List ℚ
  errors : List ℚ
  AIC : ℚ
  ncomps : ℕ
deriving DecidableEq

/-- Modelled from the spec: the template object produced by `gen_template`
via `Decomposer.create_a_template` (external pyspeckit axis template),
represented opaquely by a tag; the engine only stores and clears the
reference, never inspects it. -/
structure PskTemplate where
  tag : ℕ
deriving DecidableEq

/-- Modelled from the spec: the `individual_spectrum` task object
(model_housing2, not under `src/`) as read and mutated by `stage_3.py`:
flat pixel index, provenance pair (`saa_dict_index`, `saaindex`), flux,
rms, parent-region guesses, the mutable updated-guesses slot (initially
`none`, i.e. Python `None`), the template reference, and the
zero-or-one fitted model (`model_from_parent`, initially `none`). -/
structure IndividualSpectrum where
  index : ℕ
  coordinates : ℕ × ℕ
  spectrum : List ℚ
  rms : ℚ
  saa_dict_index : ℕ
  saaindex : ℕ
  guesses_from_parent : List ℚ
  guesses_updated : Option (List ℚ)
  template : Option PskTemplate
  model_from_parent : Option IndivModel
deriving DecidableEq

instance : Inhabited IndividualSpectrum :=
  ⟨⟨0, (0, 0), [], 0, 0, 0, [], none, none, none⟩⟩

/-- Modelled from the spec: `individual_spectrum.add_model`
(model_housing2, not under `src/`) attaches the fitted model to the task;
`compilation_method` in `stage_3.py` reads it back as `model_from_parent`. -/
def add_model (t : IndividualSpectrum) (m : IndivModel) : IndividualSpectrum :=
  { t with model_from_parent := some m }

/-- `np.around(x, decimals=2)`: rounding a scalar to two decimal places
(modelled on ℚ; the claims depend only on equality of rounded values). -/
def round2 (q : ℚ) : ℚ := (round (q * 100) : ℤ) / 100

/-- `np.size` applied to the `guesses_updated` slot: Python `None` has
numpy size 1, an array has its length. -/
def npsizeOpt : Option (List ℚ) → ℕ
  | none => 1
  | some l => l.length

/-- Boolean-mask indexing `spectrum[specids]`. -/
def applyMask (spec : List ℚ) (ids : List Bool) : List ℚ :=
  ((spec.zip ids).filter (fun p => p.2)).map (fun p => p.1)

/-- `np.unique(xs, return_index=True)` on a 1-D array: the sorted list of
distinct values together with, for each, the position of its first
occurrence in `xs`. -/
def npUnique (xs : List ℚ) : List ℚ × List ℕ :=
  let vals := xs.dedup.insertionSort (· ≤ ·)
  (vals, vals.map (fun v => xs.indexOf v))

/-- The value produced by `compilation_method` for one pixel: the task
object it returns (`rep`, with its pre-mutation fields) together with the
three provenance lists the method writes onto it. -/
structure CompiledSpectrum where
  rep : IndividualSpectrum
  saa_dict_index : List ℕ
  saaindex : List ℕ
  model_from_parent : List (Option IndivModel)
deriving DecidableEq

/-- `compilation_method` (stage_3.py, lines 282–365) restricted to the
sublist of completed tasks sharing one pixel index (the Python code
passes positions `idx = np.where(indexarr == u)[0]`, which are ascending,
so the sublist is in completed-list order).

* one candidate: adopt it, singleton provenance lists;
* several candidates, none modelled: adopt the first, singleton
  provenance lists built from it alone;
* otherwise: round each modelled candidate's AIC to 2 decimals
  (unmodelled candidates give `nan`, modelled `none` here), apply
  `np.unique(..., return_index=True)` to the nan-stripped values, and use
  the resulting first-occurrence positions — positions *within the
  nan-stripped sequence* — to index the *full* candidate sublist, exactly
  as the source does. -/
def compilation_method (cands : List IndividualSpectrum) : CompiledSpectrum :=
  if cands.length = 1 then
    let t := cands.headD default
    ⟨t, [t.saa_dict_index], [t.saaindex], [t.model_from_parent]⟩
  else
    let aics : List (Option ℚ) :=
      cands.map (fun c => c.model_from_parent.map (fun m => round2 m.AIC))
    let aics_nonnan : List ℚ := aics.filterMap id
    if aics_nonnan = [] then
      let t := cands.headD default
      ⟨t, [t.saa_dict_index], [t.saaindex], [t.model_from_parent]⟩
    else
      let uniqids := (npUnique aics_nonnan).2
      let retained := uniqids.map (fun j => cands.getD j default)
      ⟨cands.getD (uniqids.headD 0) default,
        retained.map (fun c => c.saa_dict_index),
        retained.map (fun c => c.saaindex),
        retained.map (fun c => c.model_from_parent)⟩

/-- `compile_spectra` (stage_3.py, lines 237–280): gather the distinct
pixel indices (`np.sort(np.unique(indexarr))`), run `compilation_method`
on each index's candidate sublist, and build the output dictionary keyed
by the returned object's `index` attribute (modelled as an association
list in insertion order). -/
def compile_spectra (completed : List IndividualSpectrum) :
    List (ℕ × CompiledSpectrum) :=
  let indexarr := completed.map (fun t => t.index)
  let uniq := indexarr.dedup.insertionSort (· ≤ ·)
  uniq.map (fun u =>
    let c := compilation_method (completed.filter (fun t => t.index = u))
    (c.rep.index, c))

/-- The per-run configuration threaded through `decomposition_method`
(stage_3.py line 137: `scouseobjectlist = [xtrim, trimids, fittype, tol,
CDELT3]`). `fittype` is opaque to the engine and kept as a tag. -/
structure SchedConfig where
  xtrim : List ℚ
  trimids : List Bool
  fittype : ℕ
  tol : List ℚ
  res : ℚ
deriving DecidableEq

/-- The data `decomposition_method` hands to the fitting capability:
the masked flux, the rms, the template reference placed on the
decomposer (`decomposer.psktemplate = indivspec.template`), the chosen
current guesses and the parent guesses. -/
structure DecomposerInput where
  spectrum : List ℚ
  rms : ℚ
  psktemplate : Option PskTemplate
  guesses : List ℚ
  guesses_parent : List ℚ
deriving DecidableEq

/-- Modelled from the spec: `Decomposer.fit_spectrum_from_parent`
(SpectralDecomposer, not under `src/`) — the opaque fitting capability of
spec §6, returning the valid model (or `none`) and the refined guesses. -/
def FitCap : Type := SchedConfig → DecomposerInput → Option IndivModel × List ℚ

/-- `decomposition_method` (stage_3.py, lines 185–235): mask the
spectrum, install the task's template on the decomposer, choose the
current guesses (`guesses_updated` when `np.size(guesses_updated) > 1`,
else the parent-inherited guesses), always pass the parent guesses, and
invoke the fitting capability. -/
def decomposition_method (F : FitCap) (cfg : SchedConfig)
    (t : IndividualSpectrum) : Option IndivModel × List ℚ :=
  F cfg
    { spectrum := applyMask t.spectrum cfg.trimids
      rms := t.rms
      psktemplate := t.template
      guesses :=
        if npsizeOpt t.guesses_updated ≤ 1 then t.guesses_from_parent
        else t.guesses_updated.getD []
      guesses_parent := t.guesses_from_parent }

/-- The per-result classification of `autonomous_decomposition`
(stage_3.py, lines 156–179).  The template is cleared first, for every
result (line 161).  Returns (entry kept in the pending list, entry
appended to the completed list); exactly one of the two is `some`. -/
def classify_result (t : IndividualSpectrum)
    (r : Option IndivModel × List ℚ) :
    Option IndividualSpectrum × Option IndividualSpectrum :=
  let t' := { t with template := none }
  match r with
  | (some m, _) => (none, some (add_model t' m))
  | (none, g) =>
    if g.length = 0 then (none, some t')
    else (some { t' with guesses_updated := some g }, none)

/-- One pass of the result loop over a batch: the surviving pending
entries (Python marks completed slots `None` and filters them out) and
the entries appended to the completed list, both in batch order. -/
def process_results
    (pairs : List (IndividualSpectrum × (Option IndivModel × List ℚ))) :
    List IndividualSpectrum × List IndividualSpectrum :=
  (pairs.filterMap (fun p => (classify_result p.1 p.2).1),
   pairs.filterMap (fun p => (classify_result p.1 p.2).2))

/-- The scheduler state: the pending list being refitted and the
completed list accumulated across rounds. -/
structure SchedState where
  pending : List IndividualSpectrum
  completed : List IndividualSpectrum
deriving DecidableEq

/-- One iteration of the `while` loop of `autonomous_decomposition`:
fit every pending task (results in input order, whether parallel or
serial), classify each result, keep the retries pending and append the
terminal tasks to the completed list. -/
def scheduler_step (F : FitCap) (cfg : SchedConfig) (s : SchedState) :
    SchedState :=
  let results := s.pending.map (decomposition_method F cfg)
  let pr := process_results (s.pending.zip results)
  ⟨pr.1, s.completed ++ pr.2⟩

/-- The retry loop of `autonomous_decomposition` run for at most `n`
iterations (the Python `while np.size(np.asarray(l) != 0.0)` loop,
whose condition is just non-emptiness of the list; fuel makes the
possibly-divergent loop total). -/
def scheduler_run (F : FitCap) (cfg : SchedConfig) :
    ℕ → SchedState → SchedState
  | 0, s => s
  | n + 1, s =>
    if s.pending = [] then s
    else scheduler_run F cfg n (scheduler_step F cfg s)

/-- The evolution of a single task through one round: `some` of the
mutated task if it stays pending, `none` once it completes. -/
def task_step (F : FitCap) (cfg : SchedConfig)
    (t : IndividualSpectrum) : Option IndividualSpectrum :=
  (classify_result t (decomposition_method F cfg t)).1

/-- `n`-fold iteration of `task_step` (peeling one round at the front). -/
def task_iter (F : FitCap) (cfg : SchedConfig) :
    ℕ → IndividualSpectrum → Option IndividualSpectrum
  | 0, t => some t
  | n + 1, t => (task_step F cfg t).bind (task_iter F cfg n)

/-- The immutable identity of a task: its pixel index and provenance
pair, never touched by the scheduler's mutations. -/
def tkey (t : IndividualSpectrum) : ℕ × ℕ × ℕ :=
  (t.index, t.saa_dict_index, t.saaindex)

/-- A dynamically-typed provenance attribute: `saa_dict_index` and
`saaindex` start as plain integers, but `compilation_method` overwrites
them in place with Python lists of their previous values, so a second
compiler run sees lists where it expects scalars. -/
inductive PyProv where
  | num (n : ℕ)
  | plist (l : List PyProv)

/-- A dynamically-typed `model_from_parent` attribute: a model-or-`None`
before compilation, a Python list of such values after it. -/
inductive PyModels where
  | val (m : Option IndivModel)
  | mlist (l : List PyModels)

/-- The task object with its dynamic attribute types, as needed to follow
the in-place mutation performed by `compilation_method`. -/
structure PyTask where
  index : ℕ
  saa_dict_index : PyProv
  saaindex : PyProv
  model_from_parent : PyModels

instance : Inhabited PyTask := ⟨⟨0, .num 0, .num 0, .val none⟩⟩

/-- Reading `.AIC` (rounded) off a dynamic `model_from_parent` value:
`None` gives `nan` (here `none`), a model gives its rounded AIC, and a
list — the state left by a previous compiler run — raises
`AttributeError` (here `Except.error`). -/
def pyAIC : PyModels → Except Unit (Option ℚ)
  | .val none => .ok none
  | .val (some m) => .ok (some (round2 m.AIC))
  | .mlist _ => .error ()

/-- Overwrite the three attributes of a task with the compiled
provenance lists, as the three `setattr` calls do. -/
def pySetProv (t : PyTask) (sdi si : List PyProv) (mm : List PyModels) :
    PyTask :=
  { t with saa_dict_index := .plist sdi, saaindex := .plist si,
           model_from_parent := .mlist mm }

/-- `compilation_method` with the in-place mutation made explicit: it
receives the whole completed list (which the Python closure shares) and
one pixel index, and returns the object it hands back together with the
completed list after the representative has been mutated in place.
`Except` carries the `AttributeError` raised when a previous run already
replaced a `model_from_parent` scalar with a list. -/
def compilation_method_mut (completed : List PyTask) (u : ℕ) :
    Except Unit (PyTask × List PyTask) :=
  let idx := (List.range completed.length).filter
    (fun j => (completed.getD j default).index = u)
  if idx.length = 1 then
    let j := idx.headD 0
    let t := completed.getD j default
    let t' := pySetProv t [t.saa_dict_index] [t.saaindex] [t.model_from_parent]
    .ok (t', completed.set j t')
  else
    let sub := idx.map (fun j => completed.getD j default)
    match sub.mapM (fun t => pyAIC t.model_from_parent) with
    | .error e => .error e
    | .ok aics =>
      let aics_nonnan := aics.filterMap id
      if aics_nonnan = [] then
        let j := idx.headD 0
        let t := completed.getD j default
        let t' := pySetProv t [t.saa_dict_index] [t.saaindex] [t.model_from_parent]
        .ok (t', completed.set j t')
      else
        let uniqids := (npUnique aics_nonnan).2
        let retained := uniqids.map (fun k => sub.getD k default)
        let j := idx.getD (uniqids.headD 0) 0
        let t := completed.getD j default
        let t' := pySetProv t (retained.map (fun c => c.saa_dict_index))
          (retained.map (fun c => c.saaindex))
          (retained.map (fun c => c.model_from_parent))
        .ok (t', completed.set j t')

/-- The per-index loop of `compile_spectra`, threading the shared
(mutated) completed list and accumulating the dictionary entries keyed
by the returned object's `index`. -/
def compile_spectra_mut_go :
    List ℕ → List PyTask → List (ℕ × PyTask) →
    Except Unit (List (ℕ × PyTask) × List PyTask)
  | [], st, acc => .ok (acc, st)
  | u :: us, st, acc =>
    match compilation_method_mut st u with
    | .error e => .error e
    | .ok (t, st') => compile_spectra_mut_go us st' (acc ++ [(t.index, t)])

/-- `compile_spectra` with the in-place mutation made explicit: returns
the output mapping together with the completed list as left behind by
the run (the Python list object, now holding mutated tasks). -/
def compile_spectra_mut (completed : List PyTask) :
    Except Unit (List (ℕ × PyTask) × List PyTask) :=
  compile_spectra_mut_go
    ((completed.map (fun t => t.index)).dedup.insertionSort (· ≤ ·))
    completed []

/-- The number of values the updated-guesses slot holds, in the spec's
reading: an empty slot (`None`) holds no values.  This differs from
numpy's `np.size` (which gives `None` size 1), but the two agree on the
threshold "more than one value". -/
def slotValues : Option (List ℚ) → ℕ
  | none => 0
  | some l => l.length

/-- The entry a task contributes to the completed list in the round it is
processed, if it is terminal in that round. -/
def task_done (F : FitCap) (cfg : SchedConfig)
    (t : IndividualSpectrum) : Option IndividualSpectrum :=
  (classify_result t (decomposition_method F cfg t)).2

/-- The sequence of rounded AICs contributed by the modelled candidates
of a list, in order — exactly the nan-stripped AIC array the compiler
deduplicates on.  When every candidate is modelled it is aligned
position-by-position with the candidate list. -/
def roundedAICs (cands : List IndividualSpectrum) : List ℚ :=
  cands.filterMap (fun c => c.model_from_parent.map (fun m => round2 m.AIC))

/-- The rounded AIC read off one candidate (meaningful for modelled
candidates; unmodelled ones contribute no AIC). -/
def raOf (c : IndividualSpectrum) : ℚ :=
  round2 ((c.model_from_parent.getD ⟨[], [], 0, 0⟩).AIC)

/-- A model used by the concrete scheduler scenarios. -/
def m0 : IndivModel := ⟨[], [], 0, 1⟩

/-- A configuration used by the concrete scenarios (empty axis and mask,
which the opaque capabilities below ignore). -/
def cfg0 : SchedConfig := ⟨[], [], 0, [], 0⟩

/-- A concrete fitting capability: converges immediately on spectra with
rms 0; on others it first refines the guesses to `[1, 2]` and converges
on the following attempt (when the updated guesses are passed back in). -/
def Fdemo : FitCap := fun _ dec =>
  if dec.rms = 0 then (some m0, [])
  else if dec.guesses = [1, 2] then (some m0, []) else (none, [1, 2])

/-- A task that `Fdemo` completes in the first round. -/
def tA : IndividualSpectrum := ⟨1, (0, 0), [], 0, 0, 0, [], none, none, none⟩

/-- A task that `Fdemo` sends through one retry; it starts out carrying
the shared template. -/
def tB : IndividualSpectrum :=
  ⟨2, (0, 0), [], 1, 0, 1, [], none, some ⟨7⟩, none⟩

/-- The state of `tB` after its first (non-converged) round: template
cleared, refined guesses stored. -/
def tBr : IndividualSpectrum :=
  ⟨2, (0, 0), [], 1, 0, 1, [], some [1, 2], none, none⟩

/-- The completed form of `tA` (first round). -/
def tAc : IndividualSpectrum :=
  ⟨1, (0, 0), [], 0, 0, 0, [], none, none, some m0⟩

/-- The completed form of `tB` (second round, after the retry). -/
def tBc : IndividualSpectrum :=
  ⟨2, (0, 0), [], 1, 0, 1, [], some [1, 2], none, some m0⟩

/-- A modelled candidate for pixel 3 with (rounded) AIC 50, completed
first. -/
def tP0 : IndividualSpectrum :=
  ⟨3, (0, 0), [], 0, 0, 0, [], none, none, some ⟨[], [], 50, 1⟩⟩

/-- A modelled candidate for pixel 3 with (rounded) AIC 45, completed
second. -/
def tP1 : IndividualSpectrum :=
  ⟨3, (0, 0), [], 0, 1, 1, [], none, none, some ⟨[], [], 45, 1⟩⟩

/-- An unmodelled (exhausted) candidate for pixel 4, completed first. -/
def tQ0 : IndividualSpectrum := ⟨4, (0, 0), [], 0, 0, 0, [], none, none, none⟩

/-- An unmodelled (exhausted) candidate for pixel 4, completed second. -/
def tQ1 : IndividualSpectrum := ⟨4, (0, 0), [], 0, 1, 1, [], none, none, none⟩

/-- A freshly completed single-candidate task for the in-place mutation
scenarios. -/
def pt0 : PyTask := ⟨7, .num 1, .num 2, .val none⟩

/-- `pt0` after one compiler run: provenance fields wrapped in singleton
lists. -/
def pt1 : PyTask := ⟨7, .plist [.num 1], .plist [.num 2], .mlist [.val none]⟩

/-- `pt1` after a second compiler run: wrapped once more. -/
def pt2 : PyTask :=
  ⟨7, .plist [.plist [.num 1]], .plist [.plist [.num 2]],
    .mlist [.mlist [.val none]]⟩

lemma zip_map_filterMap {α β γ : Type} (l : List α) (f : α → β)
    (g : α × β → Option γ) :
    (l.zip (l.map f)).filterMap g = l.filterMap (fun a => g (a, f a)) := by
  induction l with
  | nil => rfl
  | cons a l ih => simp [List.filterMap_cons, ih]

lemma scheduler_step_pending (F : FitCap) (cfg : SchedConfig)
    (s : SchedState) :
    (scheduler_step F cfg s).pending =
      s.pending.filterMap (task_step F cfg) := by
  simp only [scheduler_step, process_results, zip_map_filterMap]
  rfl

lemma scheduler_step_completed (F : FitCap) (cfg : SchedConfig)
    (s : SchedState) :
    (scheduler_step F cfg s).completed =
      s.completed ++ s.pending.filterMap (task_done F cfg) := by
  simp only [scheduler_step, process_results, zip_map_filterMap]
  rfl

lemma scheduler_run_of_pending_nil (F : FitCap) (cfg : SchedConfig)
    (n : ℕ) (s : SchedState) (h : s.pending = []) :
    scheduler_run F cfg n s = s := by
  cases n with
  | zero => rfl
  | succ n => simp [scheduler_run, h]

lemma scheduler_run_pending (F : FitCap) (cfg : SchedConfig) (n : ℕ)
    (s : SchedState) :
    (scheduler_run F cfg n s).pending =
      s.pending.filterMap (task_iter F cfg n) := by
  induction n generalizing s with
  | zero => simp [scheduler_run, task_iter]
  | succ n ih =>
    by_cases h : s.pending = []
    · simp [scheduler_run, h, task_iter]
    · simp only [scheduler_run, if_neg h, ih, scheduler_step_pending,
        List.filterMap_filterMap]
      rfl

lemma scheduler_run_completed_extends (F : FitCap) (cfg : SchedConfig)
    (n : ℕ) (s : SchedState) :
    s.completed <+: (scheduler_run F cfg n s).completed := by
  induction n generalizing s with
  | zero => exact List.prefix_rfl
  | succ n ih =>
    by_cases h : s.pending = []
    · simp [scheduler_run, h]
    · simp only [scheduler_run, if_neg h]
      refine List.IsPrefix.trans ?_ (ih (scheduler_step F cfg s))
      rw [scheduler_step_completed]
      exact List.prefix_append _ _

lemma scheduler_run_add (F : FitCap) (cfg : SchedConfig) (m k : ℕ)
    (s : SchedState) :
    scheduler_run F cfg (m + k) s =
      scheduler_run F cfg k (scheduler_run F cfg m s) := by
  induction m generalizing s with
  | zero => rw [Nat.zero_add]; rfl
  | succ m ih =>
    by_cases h : s.pending = []
    · rw [scheduler_run_of_pending_nil F cfg (m + 1) s h,
        scheduler_run_of_pending_nil F cfg (m + 1 + k) s h]
      exact (scheduler_run_of_pending_nil F cfg k s h).symm
    · have h1 : m + 1 + k = (m + k) + 1 := by omega
      rw [h1]
      show (if s.pending = [] then s
        else scheduler_run F cfg (m + k) (scheduler_step F cfg s)) = _
      rw [if_neg h, ih]
      congr 1
      show _ = if s.pending = [] then s
        else scheduler_run F cfg m (scheduler_step F cfg s)
      rw [if_neg h]

lemma tkey_classify_fst (F : FitCap) (cfg : SchedConfig)
    (t t' : IndividualSpectrum) (h : task_step F cfg t = some t') :
    tkey t' = tkey t := by
  unfold task_step classify_result at h
  rcases hd : decomposition_method F cfg t with ⟨om, g⟩
  rw [hd] at h
  cases om with
  | some m => simp at h
  | none =>
    by_cases hg : g.length = 0
    · simp [hg] at h
    · simp [hg] at h
      rw [← h]
      rfl

lemma partition_keys (F : FitCap) (cfg : SchedConfig)
    (l : List IndividualSpectrum) :
    List.Perm
      ((l.filterMap (task_step F cfg)).map tkey ++
        (l.filterMap (task_done F cfg)).map tkey)
      (l.map tkey) := by
  induction l with
  | nil => simp
  | cons t l ih =>
    rcases hd : decomposition_method F cfg t with ⟨om, g⟩
    cases om with
    | some m =>
      have h1 : task_step F cfg t = none := by
        simp [task_step, classify_result, hd]
      have h2 : task_done F cfg t =
          some (add_model { t with template := none } m) := by
        simp [task_done, classify_result, hd]
      simp only [List.filterMap_cons, h1, h2, List.map_cons, List.map_append]
      refine List.Perm.trans List.perm_middle ?_
      have : tkey (add_model { t with template := none } m) = tkey t := rfl
      rw [this]
      exact ih.cons (tkey t)
    | none =>
      by_cases hg : g.length = 0
      · have h1 : task_step F cfg t = none := by
          simp [task_step, classify_result, hd, hg]
        have h2 : task_done F cfg t = some { t with template := none } := by
          simp [task_done, classify_result, hd, hg]
        simp only [List.filterMap_cons, h1, h2, List.map_cons, List.map_append]
        refine List.Perm.trans List.perm_middle ?_
        have : tkey { t with template := none } = tkey t := rfl
        rw [this]
        exact ih.cons (tkey t)
      · have h1 : task_step F cfg t =
            some { t with template := none, guesses_updated := some g } := by
          simp [task_step, classify_result, hd, hg]
        have h2 : task_done F cfg t = none := by
          simp [task_done, classify_result, hd, hg]
        simp only [List.filterMap_cons, h1, h2, List.map_cons, List.cons_append]
        have : tkey { t with template := none, guesses_updated := some g } =
            tkey t := rfl
        rw [this]
        exact ih.cons (tkey t)

lemma run_keys (F : FitCap) (cfg : SchedConfig) (n : ℕ) (s : SchedState) :
    List.Perm
      ((scheduler_run F cfg n s).pending.map tkey ++
        (scheduler_run F cfg n s).completed.map tkey)
      (s.pending.map tkey ++ s.completed.map tkey) := by
  induction n generalizing s with
  | zero => rfl
  | succ n ih =>
    by_cases h : s.pending = []
    · simp [scheduler_run, h]
    · simp only [scheduler_run, if_neg h]
      refine List.Perm.trans (ih (scheduler_step F cfg s)) ?_
      rw [scheduler_step_pending, scheduler_step_completed, List.map_append]
      refine List.Perm.trans
        (List.Perm.append_left _ List.perm_append_comm) ?_
      rw [← List.append_assoc]
      exact List.Perm.append (partition_keys F cfg s.pending)
        (List.Perm.refl (s.completed.map tkey))

/-- Claim C7: the fit invocation uses the task's updated guesses as the
current guesses if and only if the updated-guesses slot holds more than
one value (an empty slot, Python `None`, holds none; `np.size(None) = 1`
and a length-0 or length-1 array all fail the code's
`np.size(...) <= 1` test exactly when the slot holds at most one value),
and otherwise uses the guesses inherited from the parent region; the
parent region's original guesses are always passed through unchanged. -/
theorem C7_guess_selection (F : FitCap) (cfg : SchedConfig)
    (t : IndividualSpectrum) :
    decomposition_method F cfg t =
      F cfg
        { spectrum := applyMask t.spectrum cfg.trimids
          rms := t.rms
          psktemplate := t.template
          guesses :=
            if 1 < slotValues t.guesses_updated then t.guesses_updated.getD []
            else t.guesses_from_parent
          guesses_parent := t.guesses_from_parent } := by
  unfold decomposition_method
  apply congrArg
  cases hu : t.guesses_updated with
  | none => simp [npsizeOpt, slotValues]
  | some l =>
    by_cases h : l.length ≤ 1
    · have h2 : ¬ 1 < l.length := by omega
      simp [npsizeOpt, slotValues, h, h2]
    · have h2 : 1 < l.length := by omega
      simp [npsizeOpt, slotValues, h, h2]

/-- Claim C4: in every scheduler iteration each batch result
`(model, updated_guesses)`, paired with its task, is classified exactly
as the claim states: a present model sends the task to the completed
list with the model attached; otherwise an empty updated-guesses list
sends it to the completed list with no model; otherwise the updated
guesses are stored on the task and it remains in the next pending batch
(order preserved; the template reference is cleared on every processed
task). -/
theorem C4_result_classification (F : FitCap) (cfg : SchedConfig)
    (s : SchedState) :
    (scheduler_step F cfg s).pending =
      s.pending.filterMap (fun t =>
        match decomposition_method F cfg t with
        | (some _, _) => none
        | (none, g) =>
          if g = [] then none
          else some { t with template := none, guesses_updated := some g }) ∧
    (scheduler_step F cfg s).completed =
      s.completed ++ s.pending.filterMap (fun t =>
        match decomposition_method F cfg t with
        | (some m, _) => some (add_model { t with template := none } m)
        | (none, g) =>
          if g = [] then some { t with template := none } else none) := by
  constructor
  · rw [scheduler_step_pending]
    congr 1
    funext t
    unfold task_step classify_result
    rcases decomposition_method F cfg t with ⟨om, g⟩
    cases om with
    | some m => rfl
    | none =>
      by_cases hg : g = []
      · simp [hg]
      · have : ¬ g.length = 0 := by simpa [List.length_eq_zero] using hg
        simp [hg, this]
  · rw [scheduler_step_completed]
    congr 1
    congr 1
    funext t
    unfold task_done classify_result
    rcases decomposition_method F cfg t with ⟨om, g⟩
    cases om with
    | some m => rfl
    | none =>
      by_cases hg : g = []
      · simp [hg]
      · have : ¬ g.length = 0 := by simpa [List.length_eq_zero] using hg
        simp [hg, this]

lemma task_step_spec (F : FitCap) (cfg : SchedConfig)
    (t : IndividualSpectrum) :
    task_step F cfg t =
      match decomposition_method F cfg t with
      | (some _, _) => none
      | (none, g) =>
        if g.length = 0 then none
        else some { t with template := none, guesses_updated := some g } := by
  unfold task_step classify_result
  rcases decomposition_method F cfg t with ⟨om, g⟩
  cases om with
  | some m => rfl
  | none => by_cases hg : g.length = 0 <;> simp [hg]

lemma task_done_spec (F : FitCap) (cfg : SchedConfig)
    (t : IndividualSpectrum) :
    task_done F cfg t =
      match decomposition_method F cfg t with
      | (some m, _) => some (add_model { t with template := none } m)
      | (none, g) =>
        if g.length = 0 then some { t with template := none } else none := by
  unfold task_done classify_result
  rcases decomposition_method F cfg t with ⟨om, g⟩
  cases om with
  | some m => rfl
  | none => by_cases hg : g.length = 0 <;> simp [hg]

lemma task_iter_succ_of_none (F : FitCap) (cfg : SchedConfig) :
    ∀ (n : ℕ) (t : IndividualSpectrum), task_iter F cfg n t = none →
      task_iter F cfg (n + 1) t = none := by
  intro n
  induction n with
  | zero => intro t h; simp [task_iter] at h
  | succ n ih =>
    intro t h
    show (task_step F cfg t).bind (task_iter F cfg (n + 1)) = none
    have h2 : (task_step F cfg t).bind (task_iter F cfg n) = none := h
    rcases hs : task_step F cfg t with _ | t'
    · rfl
    · rw [hs] at h2
      simp only [Option.some_bind] at h2 ⊢
      exact ih t' h2

lemma task_iter_none_of_le (F : FitCap) (cfg : SchedConfig)
    {n m : ℕ} (h : n ≤ m) (t : IndividualSpectrum)
    (hn : task_iter F cfg n t = none) : task_iter F cfg m t = none := by
  induction m with
  | zero =>
    have : n = 0 := by omega
    subst this
    exact hn
  | succ m ih =>
    by_cases hm : n = m + 1
    · subst hm; exact hn
    · exact task_iter_succ_of_none F cfg m t (ih (by omega))

lemma exists_uniform_bound (F : FitCap) (cfg : SchedConfig) :
    ∀ l : List IndividualSpectrum,
      (∀ t ∈ l, ∃ n, task_iter F cfg n t = none) →
      ∃ N, ∀ t ∈ l, task_iter F cfg N t = none := by
  intro l
  induction l with
  | nil => intro _; exact ⟨0, by simp⟩
  | cons a l ih =>
    intro h
    obtain ⟨na, hna⟩ := h a (List.mem_cons_self a l)
    obtain ⟨N, hN⟩ := ih (fun t ht => h t (List.mem_cons_of_mem a ht))
    refine ⟨max na N, fun t ht => ?_⟩
    rcases List.mem_cons.mp ht with rfl | ht'
    · exact task_iter_none_of_le F cfg (Nat.le_max_left na N) t hna
    · exact task_iter_none_of_le F cfg (Nat.le_max_right na N) t (hN t ht')

/-- Claim C5: for any finite initial task list and any fitting capability
that eventually yields, for each task, a model or an empty refined-guess
set (the spec's precondition on the opaque capability — non-increase of
the guess-set size alone is what makes this reachable, the eventual
termination per task is the operative hypothesis), the retry loop
terminates: some round leaves the pending list empty, and at that point
every task sits in the completed list (by identity key, as a
permutation). -/
theorem C5_retry_loop_terminates (F : FitCap) (cfg : SchedConfig)
    (init : List IndividualSpectrum)
    (hterm : ∀ t ∈ init, ∃ n, task_iter F cfg n t = none) :
    ∃ N, (scheduler_run F cfg N ⟨init, []⟩).pending = [] ∧
      List.Perm ((scheduler_run F cfg N ⟨init, []⟩).completed.map tkey)
        (init.map tkey) := by
  obtain ⟨N, hN⟩ := exists_uniform_bound F cfg init hterm
  have hpend : (scheduler_run F cfg N ⟨init, []⟩).pending = [] := by
    rw [scheduler_run_pending]
    exact List.filterMap_eq_nil_iff.mpr hN
  refine ⟨N, hpend, ?_⟩
  have hkeys := run_keys F cfg N ⟨init, []⟩
  rw [hpend] at hkeys
  simpa using hkeys

/-- Claim C5, witnessed: a concrete one-task run under `Fdemo`
terminates after one round with the task completed. -/
theorem C5_witness :
    (∀ t ∈ [tA], ∃ n, task_iter Fdemo cfg0 n t = none) ∧
    ∃ N, (scheduler_run Fdemo cfg0 N ⟨[tA], []⟩).pending = [] ∧
      List.Perm ((scheduler_run Fdemo cfg0 N ⟨[tA], []⟩).completed.map tkey)
        ([tA].map tkey) := by
  have h : ∀ t ∈ [tA], ∃ n, task_iter Fdemo cfg0 n t = none := by
    intro t ht
    rw [List.mem_singleton] at ht
    subst ht
    exact ⟨1, by decide⟩
  exact ⟨h, C5_retry_loop_terminates Fdemo cfg0 [tA] h⟩

/-- Claim C6: once the retry loop has terminated (pending list empty),
the completed list holds exactly one entry per task that entered the
loop — counted by the tasks' immutable identity keys, no key is lost and
none is duplicated. -/
theorem C6_completed_exactly_once (F : FitCap) (cfg : SchedConfig)
    (init : List IndividualSpectrum) (n : ℕ)
    (hn : (scheduler_run F cfg n ⟨init, []⟩).pending = []) :
    List.Perm ((scheduler_run F cfg n ⟨init, []⟩).completed.map tkey)
      (init.map tkey) ∧
    ((init.map tkey).Nodup →
      ((scheduler_run F cfg n ⟨init, []⟩).completed.map tkey).Nodup) := by
  have hkeys := run_keys F cfg n ⟨init, []⟩
  rw [hn] at hkeys
  have hp : List.Perm
      ((scheduler_run F cfg n ⟨init, []⟩).completed.map tkey)
      (init.map tkey) := by simpa using hkeys
  exact ⟨hp, fun hd => hp.nodup_iff.mpr hd⟩

/-- Claim C6, witnessed at a concrete one-round run. -/
theorem C6_witness :
    (scheduler_run Fdemo cfg0 1 ⟨[tA], []⟩).pending = [] ∧
    (List.Perm ((scheduler_run Fdemo cfg0 1 ⟨[tA], []⟩).completed.map tkey)
        ([tA].map tkey) ∧
      (([tA].map tkey).Nodup →
        ((scheduler_run Fdemo cfg0 1 ⟨[tA], []⟩).completed.map tkey).Nodup)) :=
  ⟨by decide, C6_completed_exactly_once Fdemo cfg0 [tA] 1 (by decide)⟩

/-- Claim C10: the completed list is ordered by completion round: any
task already completed by round `m` appears strictly before any task
that completes only in a later round; since `compilation_method` reads
candidates in completed-list order, its "first candidate" means earliest
completion. -/
theorem C10_completion_order (F : FitCap) (cfg : SchedConfig)
    (s : SchedState) (m n : ℕ) (hmn : m ≤ n)
    (a b : IndividualSpectrum)
    (ha : a ∈ (scheduler_run F cfg m s).completed)
    (hb1 : b ∉ (scheduler_run F cfg m s).completed)
    (hb2 : b ∈ (scheduler_run F cfg n s).completed) :
    (scheduler_run F cfg n s).completed.indexOf a <
      (scheduler_run F cfg n s).completed.indexOf b := by
  obtain ⟨k, rfl⟩ := Nat.exists_eq_add_of_le hmn
  rw [scheduler_run_add] at hb2 ⊢
  obtain ⟨tail, htail⟩ :=
    scheduler_run_completed_extends F cfg k (scheduler_run F cfg m s)
  rw [← htail] at hb2 ⊢
  have hb3 : b ∈ tail := by
    rcases List.mem_append.mp hb2 with h | h
    · exact absurd h hb1
    · exact h
  rw [List.indexOf_append_of_mem ha, List.indexOf_append_of_not_mem hb1]
  calc (scheduler_run F cfg m s).completed.indexOf a
      < (scheduler_run F cfg m s).completed.length :=
        List.indexOf_lt_length.mpr ha
    _ ≤ (scheduler_run F cfg m s).completed.length + tail.indexOf b :=
        Nat.le_add_right _ _

/-- Claim C10, witnessed: `tA` completes in round 1, `tB` only in round
2 after a retry, and the completed list after round 2 places `tA`'s
entry first. -/
theorem C10_witness :
    1 ≤ 2 ∧
    tAc ∈ (scheduler_run Fdemo cfg0 1 ⟨[tA, tB], []⟩).completed ∧
    tBc ∉ (scheduler_run Fdemo cfg0 1 ⟨[tA, tB], []⟩).completed ∧
    tBc ∈ (scheduler_run Fdemo cfg0 2 ⟨[tA, tB], []⟩).completed ∧
    (scheduler_run Fdemo cfg0 2 ⟨[tA, tB], []⟩).completed.indexOf tAc <
      (scheduler_run Fdemo cfg0 2 ⟨[tA, tB], []⟩).completed.indexOf tBc :=
  ⟨by decide, by decide, by decide, by decide,
    C10_completion_order Fdemo cfg0 ⟨[tA, tB], []⟩ 1 2 (by decide) tAc tBc
      (by decide) (by decide) (by decide)⟩

/-- Claim C9, amended part: the template is attached once and received by
each task's first fit invocation, but the scheduler clears the template
reference on *every* task of the processed batch — terminal or retrying
alike — so any task found pending after a round carries no template, and
any newly completed task likewise. -/
theorem C9_template_cleared (F : FitCap) (cfg : SchedConfig)
    (s : SchedState) :
    (∀ t ∈ (scheduler_step F cfg s).pending, t.template = none) ∧
    (∀ t ∈ (scheduler_step F cfg s).completed,
      t ∈ s.completed ∨ t.template = none) := by
  constructor
  · intro t ht
    rw [scheduler_step_pending] at ht
    obtain ⟨a, _, ha⟩ := List.mem_filterMap.mp ht
    rw [task_step_spec] at ha
    rcases hd : decomposition_method F cfg a with ⟨om, g⟩
    rw [hd] at ha
    cases om with
    | some m => simp at ha
    | none =>
      by_cases hg : g.length = 0
      · simp [hg] at ha
      · simp only [hg, if_false, Option.some.injEq] at ha
        rw [← ha]
  · intro t ht
    rw [scheduler_step_completed] at ht
    rcases List.mem_append.mp ht with h | h
    · exact Or.inl h
    · right
      obtain ⟨a, _, ha⟩ := List.mem_filterMap.mp h
      rw [task_done_spec] at ha
      rcases hd : decomposition_method F cfg a with ⟨om, g⟩
      rw [hd] at ha
      cases om with
      | some m =>
        simp only [Option.some.injEq] at ha
        rw [← ha]
        rfl
      | none =>
        by_cases hg : g.length = 0
        · simp only [hg, if_true, Option.some.injEq] at ha
          rw [← ha]
        · simp [hg] at ha

/-- Claim C9, counterexample: task `tB` enters the batch carrying the
template, does not converge (it is re-queued for retry), and yet leaves
the round with its template reference cleared — so its next fit
invocation does *not* receive the template, contradicting the claim that
a retrying task still carries it and that clearing happens only when a
task leaves the active batch. -/
theorem C9_counterexample :
    tB.template = some ⟨7⟩ ∧
    (scheduler_step Fdemo cfg0 ⟨[tB], []⟩).pending =
      [{ tB with template := none, guesses_updated := some [1, 2] }] := by
  constructor
  · rfl
  · decide

/-- Claim C9, amended theorem witnessed at the concrete retry scenario. -/
theorem C9_witness :
    tBr ∈ (scheduler_step Fdemo cfg0 ⟨[tB], []⟩).pending ∧
    tBr.template = none :=
  ⟨by decide, (C9_template_cleared Fdemo cfg0 ⟨[tB], []⟩).1 tBr (by decide)⟩

lemma getD_map_of_lt {α β : Type} (l : List α) (f : α → β) (i : ℕ)
    (h : i < l.length) (d : α) (d' : β) :
    (l.map f).getD i d' = f (l.getD i d) := by
  rw [List.getD_eq_getElem _ d' (by simpa using h),
    List.getD_eq_getElem _ d h]
  simp

lemma getD_mem_of_lt {α : Type} (l : List α) (i : ℕ) (h : i < l.length)
    (d : α) : l.getD i d ∈ l := by
  rw [List.getD_eq_getElem _ d h]
  exact List.getElem_mem h

lemma headD_mem_of_ne_nil {α : Type} (l : List α) (h : l ≠ []) (d : α) :
    l.headD d ∈ l := by
  cases l with
  | nil => exact absurd rfl h
  | cons a t => exact List.mem_cons_self a t

lemma headD_le_of_sorted (l : List ℚ) (hs : l.Sorted (· ≤ ·)) (y : ℚ)
    (hy : y ∈ l) : l.headD 0 ≤ y := by
  cases l with
  | nil => simp at hy
  | cons a t =>
    rcases List.mem_cons.mp hy with rfl | hy'
    · simp
    · simpa using le_of_eq rfl |>.trans ((List.sorted_cons.mp hs).1 y hy')

lemma getD_ne_of_lt_indexOf {α : Type} [DecidableEq α] :
    ∀ (l : List α) (a : α) (k : ℕ), k < l.indexOf a → ∀ d, l.getD k d ≠ a := by
  intro l
  induction l with
  | nil => intro a k h; simp [List.indexOf_nil] at h
  | cons b l ih =>
    intro a k h d
    by_cases hba : b = a
    · rw [hba, List.indexOf_cons_self] at h
      omega
    · rw [List.indexOf_cons_ne _ hba] at h
      cases k with
      | zero => simpa using hba
      | succ k => exact ih a k (by omega) d

lemma getD_indexOf_of_mem {α : Type} [DecidableEq α] (l : List α) (a : α)
    (h : a ∈ l) (d : α) : l.getD (l.indexOf a) d = a := by
  rw [List.getD_eq_getElem _ d (List.indexOf_lt_length.mpr h)]
  exact List.getElem_indexOf (List.indexOf_lt_length.mpr h)

lemma npUnique_ids_length (xs : List ℚ) :
    (npUnique xs).2.length = xs.dedup.length := by
  simp [npUnique, List.length_insertionSort]

lemma npUnique_vals_mem (xs : List ℚ) (v : ℚ) :
    v ∈ (npUnique xs).1 ↔ v ∈ xs := by
  simp [npUnique, List.mem_insertionSort, List.mem_dedup]

/-- Every entry of the `return_index` component of `np.unique` is the
position of the first occurrence, in the input, of the corresponding
sorted distinct value. -/
lemma npUnique_ids_spec (xs : List ℚ) (i : ℕ)
    (hi : i < (npUnique xs).2.length) :
    (npUnique xs).2.getD i 0 < xs.length ∧
    xs.getD ((npUnique xs).2.getD i 0) 0 = (npUnique xs).1.getD i 0 ∧
    ∀ k, k < (npUnique xs).2.getD i 0 → xs.getD k 0 ≠ (npUnique xs).1.getD i 0 := by
  have hlen : i < (npUnique xs).1.length := by
    simpa [npUnique, List.length_insertionSort] using hi
  have hgd : (npUnique xs).2.getD i 0 = xs.indexOf ((npUnique xs).1.getD i 0) := by
    show ((npUnique xs).1.map (fun v => xs.indexOf v)).getD i 0 = _
    exact getD_map_of_lt _ _ i hlen 0 0
  have hv : (npUnique xs).1.getD i 0 ∈ xs :=
    (npUnique_vals_mem xs _).mp (getD_mem_of_lt _ i hlen 0)
  refine ⟨?_, ?_, ?_⟩
  · rw [hgd]
    exact List.indexOf_lt_length.mpr hv
  · rw [hgd]
    exact getD_indexOf_of_mem xs _ hv 0
  · intro k hk
    rw [hgd] at hk
    exact getD_ne_of_lt_indexOf xs _ k hk 0

/-- The first `return_index` entry of `np.unique` points at the first
occurrence of the smallest value of the input. -/
lemma npUnique_head_spec (xs : List ℚ) (hne : xs ≠ []) :
    (npUnique xs).2.headD 0 < xs.length ∧
    (∀ k, k < xs.length →
      xs.getD ((npUnique xs).2.headD 0) 0 ≤ xs.getD k 0) ∧
    ∀ k, k < (npUnique xs).2.headD 0 →
      xs.getD k 0 ≠ xs.getD ((npUnique xs).2.headD 0) 0 := by
  have hvne : (npUnique xs).1 ≠ [] := by
    intro h
    have : xs.dedup.length = 0 := by
      simpa [npUnique, List.length_insertionSort] using congrArg List.length h
    have hx : xs.dedup = [] := List.length_eq_zero.mp this
    rcases List.exists_mem_of_ne_nil xs hne with ⟨a, ha⟩
    have : a ∈ xs.dedup := List.mem_dedup.mpr ha
    simp [hx] at this
  have hlen0 : 0 < (npUnique xs).1.length :=
    List.length_pos.mpr hvne
  have hhead : (npUnique xs).2.headD 0 = (npUnique xs).2.getD 0 0 := by
    cases h2 : (npUnique xs).2 with
    | nil =>
      have := npUnique_ids_length xs
      rw [h2] at this
      simp [npUnique, List.length_insertionSort] at this hlen0
      omega
    | cons a t => simp
  have hidlen : 0 < (npUnique xs).2.length := by
    rw [npUnique_ids_length]
    simpa [npUnique, List.length_insertionSort] using hlen0
  obtain ⟨h1, h2, h3⟩ := npUnique_ids_spec xs 0 hidlen
  have hv0 : (npUnique xs).1.getD 0 0 = (npUnique xs).1.headD 0 := by
    cases hval : (npUnique xs).1 with
    | nil => exact absurd hval hvne
    | cons a t => simp
  refine ⟨by rw [hhead]; exact h1, ?_, ?_⟩
  · intro k hk
    rw [hhead, h2, hv0]
    have hsorted : ((npUnique xs).1).Sorted (· ≤ ·) :=
      List.sorted_insertionSort _ _
    have hmem : xs.getD k 0 ∈ (npUnique xs).1 :=
      (npUnique_vals_mem xs _).mpr (getD_mem_of_lt xs k hk 0)
    exact headD_le_of_sorted _ hsorted _ hmem
  · intro k hk
    rw [hhead] at hk ⊢
    rw [h2]
    exact h3 k hk

/-- The representative returned by `compilation_method` is always one of
the candidates (for a non-empty candidate list). -/
lemma compilation_rep_mem (cands : List IndividualSpectrum)
    (h : cands ≠ []) : (compilation_method cands).rep ∈ cands := by
  unfold compilation_method
  by_cases h1 : cands.length = 1
  · rw [if_pos h1]
    exact headD_mem_of_ne_nil cands h default
  · rw [if_neg h1]
    set aics_nonnan :=
      (cands.map (fun c => c.model_from_parent.map
        (fun m => round2 m.AIC))).filterMap id with haics
    by_cases h2 : aics_nonnan = []
    · rw [if_pos h2]
      exact headD_mem_of_ne_nil cands h default
    · rw [if_neg h2]
      have hj := (npUnique_head_spec aics_nonnan h2).1
      have hlt : (npUnique aics_nonnan).2.headD 0 < cands.length := by
        calc (npUnique aics_nonnan).2.headD 0 < aics_nonnan.length := hj
          _ ≤ cands.length := by
            rw [haics]
            exact (List.length_filterMap_le _ _).trans (by simp)
      exact getD_mem_of_lt cands _ hlt default

/-- The keys of the compiled mapping are exactly the sorted distinct
pixel indices of the completed list. -/
lemma compile_spectra_keys (completed : List IndividualSpectrum) :
    (compile_spectra completed).map (fun p => p.1) =
      (completed.map (fun t => t.index)).dedup.insertionSort (· ≤ ·) := by
  unfold compile_spectra
  rw [List.map_map]
  have : ∀ u ∈ (completed.map (fun t => t.index)).dedup.insertionSort (· ≤ ·),
      (compilation_method (completed.filter (fun t => t.index = u))).rep.index
        = u := by
    intro u hu
    have hu2 : u ∈ completed.map (fun t => t.index) := by
      rw [← List.mem_dedup, ← List.mem_insertionSort (· ≤ ·)]
      exact hu
    obtain ⟨t, ht, hti⟩ := List.mem_map.mp hu2
    have hne : completed.filter (fun t => t.index = u) ≠ [] := by
      intro hnil
      have : t ∈ completed.filter (fun t => t.index = u) :=
        List.mem_filter.mpr ⟨ht, by simp [hti]⟩
      simp [hnil] at this
    have hrep := compilation_rep_mem _ hne
    have := (List.mem_filter.mp hrep).2
    simpa using this
  calc ((completed.map (fun t => t.index)).dedup.insertionSort (· ≤ ·)).map
        (fun u => (compilation_method
          (completed.filter (fun t => t.index = u))).rep.index)
      = ((completed.map (fun t => t.index)).dedup.insertionSort (· ≤ ·)).map
          id := List.map_congr_left (fun u hu => this u hu)
    _ = _ := List.map_id _

/-- Claim C3: the key set of the compiled output mapping equals exactly
the set of distinct pixel indices occurring in the completed-task list,
with no key missing or duplicated (hence exactly one CompiledSpectrum
per distinct index). -/
theorem C3_compilation_coverage (completed : List IndividualSpectrum) :
    ((compile_spectra completed).map (fun p => p.1)).Nodup ∧
    ∀ k, k ∈ (compile_spectra completed).map (fun p => p.1) ↔
      k ∈ completed.map (fun t => t.index) := by
  rw [compile_spectra_keys]
  constructor
  · exact ((List.perm_insertionSort (· ≤ ·) _).nodup_iff).mpr
      (List.nodup_dedup _)
  · intro k
    rw [List.mem_insertionSort (· ≤ ·), List.mem_dedup]

lemma roundedAICs_filterMap (cands : List IndividualSpectrum) :
    (cands.map (fun c => c.model_from_parent.map
      (fun m => round2 m.AIC))).filterMap id = roundedAICs cands := by
  rw [List.filterMap_map, Function.id_comp]
  rfl

/-- The non-degenerate compilation branch: several candidates, at least
one modelled. -/
lemma compilation_method_modeled (cands : List IndividualSpectrum)
    (h1 : cands.length ≠ 1) (h2 : roundedAICs cands ≠ []) :
    compilation_method cands =
      ⟨cands.getD ((npUnique (roundedAICs cands)).2.headD 0) default,
        ((npUnique (roundedAICs cands)).2.map
          (fun j => cands.getD j default)).map (fun c => c.saa_dict_index),
        ((npUnique (roundedAICs cands)).2.map
          (fun j => cands.getD j default)).map (fun c => c.saaindex),
        ((npUnique (roundedAICs cands)).2.map
          (fun j => cands.getD j default)).map
            (fun c => c.model_from_parent)⟩ := by
  simp only [compilation_method]
  rw [if_neg h1, roundedAICs_filterMap, if_neg h2]

lemma filterMap_eq_map_of_some {α β : Type} (f : α → Option β)
    (g : α → β) (l : List α) (h : ∀ a ∈ l, f a = some (g a)) :
    l.filterMap f = l.map g := by
  induction l with
  | nil => rfl
  | cons a l ih =>
    rw [List.filterMap_cons, h a (List.mem_cons_self a l), List.map_cons,
      ih (fun x hx => h x (List.mem_cons_of_mem a hx))]

/-- When every candidate carries a model, the rounded-AIC sequence is
aligned with the candidate list: it is the pointwise image of `raOf`. -/
lemma roundedAICs_eq_map (cands : List IndividualSpectrum)
    (hall : ∀ t ∈ cands, t.model_from_parent ≠ none) :
    roundedAICs cands = cands.map raOf := by
  unfold roundedAICs
  apply filterMap_eq_map_of_some
  intro a ha
  rcases hm : a.model_from_parent with _ | m
  · exact absurd hm (hall a ha)
  · simp [raOf, hm]

/-- Claim C1, amended: for a pixel with two or more candidates, every
one of which carries a model, the compiler rounds each candidate's AIC
to two decimals, retains for each distinct rounded value the first
candidate (in completed-list order) achieving it, records provenance for
exactly those retained candidates (one entry per distinct rounded AIC),
and selects as representative the first candidate achieving the
*smallest* rounded AIC — lowest-AIC first-occurrence, not the plain
first (lowest-index) entry of the deduplicated set.  (When some
candidates lack models, the first-occurrence positions are computed
within the modelled subsequence but applied to the full candidate list,
so the recorded provenance can point at unmodelled candidates; this
amended statement covers the all-modelled case, where the two agree.) -/
theorem C1_dedup_and_selection (cands : List IndividualSpectrum)
    (h2 : 2 ≤ cands.length)
    (hall : ∀ t ∈ cands, t.model_from_parent ≠ none) :
    (compilation_method cands).saaindex.length =
      (roundedAICs cands).dedup.length ∧
    (∃ j, j < cands.length ∧
      (compilation_method cands).rep = cands.getD j default ∧
      (∀ k, k < cands.length →
        (roundedAICs cands).getD j 0 ≤ (roundedAICs cands).getD k 0) ∧
      ∀ k, k < j →
        (roundedAICs cands).getD k 0 ≠ (roundedAICs cands).getD j 0) ∧
    ∀ i, i < (compilation_method cands).saaindex.length →
      ∃ j, j < cands.length ∧
        (compilation_method cands).saa_dict_index.getD i 0 =
          (cands.getD j default).saa_dict_index ∧
        (compilation_method cands).saaindex.getD i 0 =
          (cands.getD j default).saaindex ∧
        (compilation_method cands).model_from_parent.getD i none =
          (cands.getD j default).model_from_parent ∧
        ∀ k, k < j →
          (roundedAICs cands).getD k 0 ≠ (roundedAICs cands).getD j 0 := by
  have h1 : cands.length ≠ 1 := by omega
  have hlen : (roundedAICs cands).length = cands.length := by
    rw [roundedAICs_eq_map cands hall, List.length_map]
  have hne : roundedAICs cands ≠ [] := by
    intro h
    rw [h] at hlen
    simp at hlen
    omega
  have hcomp := compilation_method_modeled cands h1 hne
  have hids_len : (npUnique (roundedAICs cands)).2.length =
      (roundedAICs cands).dedup.length := npUnique_ids_length _
  refine ⟨?_, ?_, ?_⟩
  · rw [hcomp]
    simpa using hids_len
  · obtain ⟨hj1, hj2, hj3⟩ := npUnique_head_spec (roundedAICs cands) hne
    refine ⟨(npUnique (roundedAICs cands)).2.headD 0, ?_, ?_, ?_, ?_⟩
    · rw [← hlen]
      exact hj1
    · rw [hcomp]
    · intro k hk
      exact hj2 k (by rw [hlen]; exact hk)
    · exact hj3
  · intro i hi
    have hi2 : i < (npUnique (roundedAICs cands)).2.length := by
      rw [hcomp] at hi
      simpa using hi
    obtain ⟨hj1, hj2, hj3⟩ := npUnique_ids_spec (roundedAICs cands) i hi2
    refine ⟨(npUnique (roundedAICs cands)).2.getD i 0, ?_, ?_, ?_, ?_, ?_⟩
    · rw [← hlen]
      exact hj1
    · rw [hcomp]
      show (((npUnique (roundedAICs cands)).2.map
        (fun j => cands.getD j default)).map
          (fun c => c.saa_dict_index)).getD i 0 = _
      rw [getD_map_of_lt _ _ i (by simpa using hi2) default,
        getD_map_of_lt _ _ i hi2 0]
    · rw [hcomp]
      show (((npUnique (roundedAICs cands)).2.map
        (fun j => cands.getD j default)).map
          (fun c => c.saaindex)).getD i 0 = _
      rw [getD_map_of_lt _ _ i (by simpa using hi2) default,
        getD_map_of_lt _ _ i hi2 0]
    · rw [hcomp]
      show (((npUnique (roundedAICs cands)).2.map
        (fun j => cands.getD j default)).map
          (fun c => c.model_from_parent)).getD i none = _
      rw [getD_map_of_lt _ _ i (by simpa using hi2) default,
        getD_map_of_lt _ _ i hi2 0]
    · intro k hk
      rw [hj2]
      exact hj3 k hk

lemma round2_fifty : round2 50 = 50 := by norm_num [round2, round_eq]

lemma round2_fortyfive : round2 45 = 45 := by norm_num [round2, round_eq]

/-- Claim C1, counterexample: pixel 3 has two modelled candidates, the
first (`tP0`, provenance pair (0,0)) with rounded AIC 50 and the second
(`tP1`, provenance pair (1,1)) with rounded AIC 45.  The deduplicated
set keeps both (distinct AICs), and the claim says the representative is
its first (lowest-index) entry — `tP0` — "regardless of which AIC is
numerically lower".  The code instead returns `tP1`: `np.unique` sorts
the rounded AICs, so `uniqids[0]` is the first occurrence of the
*smallest* AIC, making the selection lowest-AIC, not first-occurrence. -/
theorem C1_counterexample :
    (compilation_method [tP0, tP1]).rep = tP1 ∧ tP1 ≠ tP0 := by
  constructor
  · have hnp : npUnique [(50 : ℚ), 45] = ([45, 50], [1, 0]) := by decide
    simp [compilation_method, tP0, tP1, round2_fifty, round2_fortyfive, hnp]
  · decide

/-- Claim C1, amended theorem applied at the concrete two-candidate
pixel of the counterexample (both modelled, list length 2). -/
theorem C1_witness :
    2 ≤ [tP0, tP1].length ∧
    (∀ t ∈ [tP0, tP1], t.model_from_parent ≠ none) ∧
    ((compilation_method [tP0, tP1]).saaindex.length =
        (roundedAICs [tP0, tP1]).dedup.length ∧
      (∃ j, j < [tP0, tP1].length ∧
        (compilation_method [tP0, tP1]).rep = [tP0, tP1].getD j default ∧
        (∀ k, k < [tP0, tP1].length →
          (roundedAICs [tP0, tP1]).getD j 0 ≤
            (roundedAICs [tP0, tP1]).getD k 0) ∧
        ∀ k, k < j →
          (roundedAICs [tP0, tP1]).getD k 0 ≠
            (roundedAICs [tP0, tP1]).getD j 0) ∧
      ∀ i, i < (compilation_method [tP0, tP1]).saaindex.length →
        ∃ j, j < [tP0, tP1].length ∧
          (compilation_method [tP0, tP1]).saa_dict_index.getD i 0 =
            ([tP0, tP1].getD j default).saa_dict_index ∧
          (compilation_method [tP0, tP1]).saaindex.getD i 0 =
            ([tP0, tP1].getD j default).saaindex ∧
          (compilation_method [tP0, tP1]).model_from_parent.getD i none =
            ([tP0, tP1].getD j default).model_from_parent ∧
          ∀ k, k < j →
            (roundedAICs [tP0, tP1]).getD k 0 ≠
              (roundedAICs [tP0, tP1]).getD j 0) :=
  ⟨by decide, by decide,
    C1_dedup_and_selection [tP0, tP1] (by decide) (by decide)⟩

/-- Claim C2, amended: for a pixel whose two-or-more candidates all lack
models, the compiler picks the first candidate (completed-list order) as
the representative with a null model, but the provenance lists are
*singletons* built from that representative alone — they do not record
every contributing candidate's (region, region-container) pair. -/
theorem C2_no_model_first_candidate (cands : List IndividualSpectrum)
    (h2 : 2 ≤ cands.length)
    (hall : ∀ t ∈ cands, t.model_from_parent = none) :
    compilation_method cands =
      ⟨cands.headD default, [(cands.headD default).saa_dict_index],
        [(cands.headD default).saaindex], [none]⟩ ∧
    (compilation_method cands).saaindex.length = 1 := by
  have h1 : cands.length ≠ 1 := by omega
  have hne : cands ≠ [] := by
    intro h
    rw [h] at h2
    simp at h2
  have hnull : roundedAICs cands = [] := by
    unfold roundedAICs
    rw [List.filterMap_eq_nil_iff]
    intro c hc
    rw [hall c hc]
    rfl
  have hmain : compilation_method cands =
      ⟨cands.headD default, [(cands.headD default).saa_dict_index],
        [(cands.headD default).saaindex], [none]⟩ := by
    simp only [compilation_method]
    rw [if_neg h1, roundedAICs_filterMap, if_pos hnull]
    have : (cands.headD default).model_from_parent = none :=
      hall (cands.headD default) (headD_mem_of_ne_nil cands hne default)
    rw [this]
  exact ⟨hmain, by rw [hmain]; rfl⟩

/-- Claim C2, counterexample: pixel 4 has two exhausted (null-model)
candidates with provenance pairs (0,0) and (1,1); the claim requires the
compiled provenance lists to record both pairs (length 2), but the code
builds singleton lists from the first candidate only. -/
theorem C2_counterexample :
    (compilation_method [tQ0, tQ1]).saaindex.length = 1 ∧
    (compilation_method [tQ0, tQ1]).saa_dict_index = [0] ∧
    (compilation_method [tQ0, tQ1]).saaindex = [0] ∧
    (compilation_method [tQ0, tQ1]).model_from_parent = [none] := by
  refine ⟨?_, ?_, ?_, ?_⟩ <;> decide

/-- Claim C2, amended theorem applied at the concrete two-candidate
exhausted pixel. -/
theorem C2_witness :
    2 ≤ [tQ0, tQ1].length ∧
    (∀ t ∈ [tQ0, tQ1], t.model_from_parent = none) ∧
    (compilation_method [tQ0, tQ1] =
        ⟨[tQ0, tQ1].headD default,
          [([tQ0, tQ1].headD default).saa_dict_index],
          [([tQ0, tQ1].headD default).saaindex], [none]⟩ ∧
      (compilation_method [tQ0, tQ1]).saaindex.length = 1) :=
  ⟨by decide, by decide,
    C2_no_model_first_candidate [tQ0, tQ1] (by decide) (by decide)⟩

lemma plist_singleton_ne (p : PyProv) : PyProv.plist [p] ≠ p := by
  intro h
  have h1 := congrArg sizeOf h
  simp at h1
  omega

/-- One compiler run over a single-candidate completed list: the task's
provenance attributes are overwritten in place with singleton lists of
their previous values, and the mutated object is both the dictionary
value and the list's sole element afterwards. -/
lemma compile_spectra_mut_single (x : PyTask) :
    compile_spectra_mut [x] =
      .ok ([(x.index,
        pySetProv x [x.saa_dict_index] [x.saaindex] [x.model_from_parent])],
        [pySetProv x [x.saa_dict_index] [x.saaindex] [x.model_from_parent]]) := by
  simp [compile_spectra_mut, compile_spectra_mut_go, compilation_method_mut,
    pySetProv, List.insertionSort, List.orderedInsert, List.range_succ]

/-- Claim C8, amended: a single compiler run is a deterministic function
of its input, but it is not idempotent on the literally same completed
list: the run rewrites the representative's provenance fields in place
(scalars become singleton lists), so a second run over the same list
wraps them again and produces a different mapping.  Shown here for any
single-candidate list; multi-candidate pixels with a model would instead
crash the second run (`.AIC` read off a list). -/
theorem C8_second_run_differs (t : PyTask) :
    ∃ r₁ r₂ : PyTask,
      compile_spectra_mut [t] = .ok ([(t.index, r₁)], [r₁]) ∧
      compile_spectra_mut [r₁] = .ok ([(t.index, r₂)], [r₂]) ∧
      r₂.saa_dict_index = PyProv.plist [r₁.saa_dict_index] ∧ r₂ ≠ r₁ := by
  refine ⟨pySetProv t [t.saa_dict_index] [t.saaindex] [t.model_from_parent],
    pySetProv
      (pySetProv t [t.saa_dict_index] [t.saaindex] [t.model_from_parent])
      [(pySetProv t [t.saa_dict_index] [t.saaindex]
        [t.model_from_parent]).saa_dict_index]
      [(pySetProv t [t.saa_dict_index] [t.saaindex]
        [t.model_from_parent]).saaindex]
      [(pySetProv t [t.saa_dict_index] [t.saaindex]
        [t.model_from_parent]).model_from_parent],
    compile_spectra_mut_single t, ?_, rfl, ?_⟩
  · have h := compile_spectra_mut_single
      (pySetProv t [t.saa_dict_index] [t.saaindex] [t.model_from_parent])
    rw [h]
    rfl
  · intro h
    have h2 := congrArg PyTask.saa_dict_index h
    exact plist_singleton_ne _ h2

/-- Claim C8, counterexample: running the compiler twice on the same
(shared, mutated-in-place) completed list holding the single task `pt0`
yields `[(7, pt1)]` the first time and `[(7, pt2)] ≠ [(7, pt1)]` the
second time — the mappings are not identical. -/
theorem C8_counterexample :
    compile_spectra_mut [pt0] = .ok ([(7, pt1)], [pt1]) ∧
    compile_spectra_mut [pt1] = .ok ([(7, pt2)], [pt2]) ∧
    pt2 ≠ pt1 := by
  refine ⟨rfl, rfl, ?_⟩
  intro h
  have h2 := congrArg PyTask.saa_dict_index h
  simp [pt1, pt2] at h2

end Scousepy
